import Mathlib

/-!
Shallow embedding of `_CacheingDefinitionIndex` from
`python_modules/dagster/dagster/_core/definitions/repository_definition/caching_index.py`,
a lazy, validating, name-indexed definition registry.

Modelling choices:
* An `Entity` is opaque except for its `name` and structural equality; `payload`
  stands for the rest of its observable data.
* Factories and the discovery function are modelled by the (pure) outcome of
  invoking them: `Except.error` when the call raises.  Invocations are counted
  in the index state (`factoryCalls`, `discoveryCalls`, `nameListComputes`),
  which makes "invoked at most once" properties statable.
* Raising is modelled by `Except`; a raise returns the state as mutated so far
  (Python exceptions do not roll back earlier attribute writes).
* The `isinstance` checks of the source are enforced by typing here, so the
  construction-time type check and the type half of `_validate_and_cache_definition`
  are vacuous in the embedding.
-/

deriving instance DecidableEq for Except

/-- An entity held by the index: a required `name` plus opaque remaining data. -/
structure Entity where
  name : String
  payload : Nat
deriving DecidableEq, Repr

/-- An eager-map entry: a ready definition, or a zero-argument factory modelled
by the outcome of invoking it. -/
inductive Entry where
  | defn (e : Entity)
  | factory (r : Except String Entity)

/-- Errors: `checkError` models `dagster._check.CheckError` raised by
`check.invariant`; `invariantViolation` models `DagsterInvariantViolationError`;
`external` a condition propagated unchanged from the validation function, a
factory, or discovery; `keyError` a Python `KeyError` from
`self._definitions[definition_name]`. -/
inductive DIVError where
  | checkError (msg : String)
  | invariantViolation (msg : String)
  | external (msg : String)
  | keyError (key : String)
deriving DecidableEq, Repr

/-- The construction-time inputs of `_CacheingDefinitionIndex.__init__`.
`definitions` is an ordered mapping (Python dict preserves insertion order). -/
structure IndexConfig where
  definitionClassName : String
  definitionKind : String
  definitions : List (String × Entry)
  validationFn : Entity → Except String Entity
  lazyDefinitionsFn : Except String (List Entity)

/-- The mutable state of one index instance, plus instrumentation counters for
discovery invocations, factory invocations (list of keys, with multiplicity)
and completed name-list computations. -/
structure IndexState where
  definitionCache : List (String × Entity)
  definitionNames : Option (List String)
  lazyDefinitions : Option (List Entity)
  allDefinitions : Option (List Entity)
  discoveryCalls : Nat
  factoryCalls : List String
  nameListComputes : Nat
deriving DecidableEq, Repr

/-- State right after `__init__`: every memoized slot unset, every counter zero. -/
def initState : IndexState :=
  { definitionCache := []
    definitionNames := none
    lazyDefinitions := none
    allDefinitions := none
    discoveryCalls := 0
    factoryCalls := []
    nameListComputes := 0 }

/-- Python `self._definitions.get(name)`. -/
def lookupDef (cfg : IndexConfig) (name : String) : Option Entry :=
  (cfg.definitions.find? (fun p => p.1 == name)).map (fun p => p.2)

/-- Python `list(self._definitions.keys())` (insertion order). -/
def eagerKeys (cfg : IndexConfig) : List String :=
  cfg.definitions.map (fun p => p.1)

/-- Lookup in the resolved-definition cache dict. -/
def lookupCache (cache : List (String × Entity)) (name : String) : Option Entity :=
  (cache.find? (fun p => p.1 == name)).map (fun p => p.2)

/-- Python `dict[key] = value`: overwrite in place or append. -/
def setCache : List (String × Entity) → String → Entity → List (String × Entity)
  | [], k, v => [(k, v)]
  | (k', v') :: rest, k, v =>
    if k' == k then (k', v) :: rest else (k', v') :: setCache rest k v

/-- Python `strict_definition == definition`: an entity compares structurally,
a factory (a function object) never equals an entity. -/
def entryEqEntity : Entry → Entity → Bool
  | .defn e, d => e == d
  | .factory _, _ => false

/-- A single-quote character, used by the source's diagnostic messages. -/
def squote : String := String.singleton (Char.ofNat 39)

/-- `"{name}"` wrapped in single quotes, as in the not-found message. -/
def quoteName (n : String) : String := squote ++ n ++ squote

/-- Python `", ".join(xs)`. -/
def joinComma : List String → String
  | [] => ""
  | [x] => x
  | x :: xs => x ++ ", " ++ joinComma xs

/-- Message of the `check.invariant` in `get_definition_names`. -/
def dupMsg (name : String) : String :=
  "Duplicate definition found for " ++ name

/-- Message of the name-match `check.invariant` in `_validate_and_cache_definition`. -/
def nameMismatchMsg (kind key className got : String) : String :=
  "Bad constructor for " ++ kind ++ " " ++ quoteName key ++ ": name in " ++ className ++
    " does not match: got " ++ quoteName got

/-- Message of the `DagsterInvariantViolationError` raised by `get_definition`
for an unknown name. -/
def notFoundMsg (kind name : String) (found : List String) : String :=
  "Could not find " ++ kind ++ " " ++ quoteName name ++ ". Found: " ++
    joinComma (found.map quoteName) ++ "."

/-- `_validate_and_cache_definition(definition, definition_dict_key)`: the name
check, then the validation call, then the cache write (so a raise leaves the
cache untouched). -/
def validateAndCacheDefinition (cfg : IndexConfig) (st : IndexState)
    (definition : Entity) (definitionDictKey : String) :
    Except DIVError Unit × IndexState :=
  if definition.name == definitionDictKey then
    match cfg.validationFn definition with
    | .error e => (.error (.external e), st)
    | .ok v =>
      (.ok (), { st with definitionCache := setCache st.definitionCache definitionDictKey v })
  else
    (.error (.checkError
      (nameMismatchMsg cfg.definitionKind definitionDictKey cfg.definitionClassName
        definition.name)), st)

/-- The `for definition in self._lazy_definitions:` loop of `_get_lazy_definitions`:
validate-and-cache each discovered definition under its own name, stopping at the
first raise. -/
def validateLazyList (cfg : IndexConfig) : IndexState → List Entity →
    Except DIVError Unit × IndexState
  | st, [] => (.ok (), st)
  | st, d :: rest =>
    match validateAndCacheDefinition cfg st d d.name with
    | (.ok _, st') => validateLazyList cfg st' rest
    | (.error e, st') => (.error e, st')

/-- `_get_lazy_definitions`: memoized with an `is None` test.  The discovery
function is invoked (and counted) only when the memo is unset; its result is
stored before the validation loop runs, so a raise inside the loop does not
unset the memo, while a raise of the discovery function itself leaves the memo
unset. -/
def getLazyDefinitions (cfg : IndexConfig) (st : IndexState) :
    Except DIVError (List Entity) × IndexState :=
  match st.lazyDefinitions with
  | some defs => (.ok defs, st)
  | none =>
    match cfg.lazyDefinitionsFn with
    | .error e =>
      (.error (.external e), { st with discoveryCalls := st.discoveryCalls + 1 })
    | .ok defs =>
      match validateLazyList cfg
          { st with discoveryCalls := st.discoveryCalls + 1,
                    lazyDefinitions := some defs } defs with
      | (.ok _, st2) => (.ok defs, st2)
      | (.error e, st2) => (.error e, st2)

/-- The name-collection loop of `get_definition_names`: the names of discovered
definitions that are not eager keys, in discovery order, raising on the first
discovered definition that conflicts with an eager entry of the same name. -/
def computeLazyNames (cfg : IndexConfig) : List Entity → Except DIVError (List String)
  | [] => .ok []
  | d :: rest =>
    match lookupDef cfg d.name with
    | some strictDefinition =>
      if entryEqEntity strictDefinition d then computeLazyNames cfg rest
      else .error (.checkError (dupMsg d.name))
    | none =>
      match computeLazyNames cfg rest with
      | .ok names => .ok (d.name :: names)
      | .error e => .error e

/-- The non-memoized path of `get_definition_names`: run discovery, collect
lazy-only names, store eager keys followed by lazy-only names. -/
def getDefinitionNamesCompute (cfg : IndexConfig) (st : IndexState) :
    Except DIVError (List String) × IndexState :=
  match getLazyDefinitions cfg st with
  | (.error e, st') => (.error e, st')
  | (.ok lazyDefs, st') =>
    match computeLazyNames cfg lazyDefs with
    | .error e => (.error e, st')
    | .ok lazyNames =>
      (.ok (eagerKeys cfg ++ lazyNames),
        { st' with definitionNames := some (eagerKeys cfg ++ lazyNames),
                   nameListComputes := st'.nameListComputes + 1 })

/-- `get_definition_names`.  Note the memoization test of the source is
`if self._definition_names:` — a truthiness test, so a memoized empty list is
recomputed. -/
def getDefinitionNames (cfg : IndexConfig) (st : IndexState) :
    Except DIVError (List String) × IndexState :=
  match st.definitionNames with
  | some names =>
    if names.isEmpty then getDefinitionNamesCompute cfg st else (.ok names, st)
  | none => getDefinitionNamesCompute cfg st

/-- `has_definition(definition_name)`. -/
def hasDefinition (cfg : IndexConfig) (st : IndexState) (definitionName : String) :
    Except DIVError Bool × IndexState :=
  match getDefinitionNames cfg st with
  | (.ok names, st') => (.ok (decide (definitionName ∈ names)), st')
  | (.error e, st') => (.error e, st')

/-- `get_definition(definition_name)`: not-found check (whose message calls
`get_definition_names()` again), cache hit, eager entity (validated result
cached, original returned), or factory (invoked, counted, validated-and-cached,
raw result returned). -/
def getDefinition (cfg : IndexConfig) (st : IndexState) (definitionName : String) :
    Except DIVError Entity × IndexState :=
  match hasDefinition cfg st definitionName with
  | (.error e, st1) => (.error e, st1)
  | (.ok has, st1) =>
    if has then
      match lookupCache st1.definitionCache definitionName with
      | some cached => (.ok cached, st1)
      | none =>
        match lookupDef cfg definitionName with
        | none => (.error (.keyError definitionName), st1)
        | some (.defn e) =>
          match cfg.validationFn e with
          | .error err => (.error (.external err), st1)
          | .ok v =>
            (.ok e,
              { st1 with definitionCache := setCache st1.definitionCache definitionName v })
        | some (.factory r) =>
          match r with
          | .error err =>
            (.error (.external err),
              { st1 with factoryCalls := st1.factoryCalls ++ [definitionName] })
          | .ok d =>
            match validateAndCacheDefinition cfg
                { st1 with factoryCalls := st1.factoryCalls ++ [definitionName] }
                d definitionName with
            | (.ok _, st3) => (.ok d, st3)
            | (.error e, st3) => (.error e, st3)
    else
      match getDefinitionNames cfg st1 with
      | (.ok names, st2) =>
        (.error (.invariantViolation (notFoundMsg cfg.definitionKind definitionName names)),
          st2)
      | (.error e, st2) => (.error e, st2)

/-- `map(self.get_definition, names)` as consumed left-to-right by `sorted`. -/
def mapGetDefinition (cfg : IndexConfig) : IndexState → List String →
    Except DIVError (List Entity) × IndexState
  | st, [] => (.ok [], st)
  | st, n :: rest =>
    match getDefinition cfg st n with
    | (.error e, st') => (.error e, st')
    | (.ok d, st') =>
      match mapGetDefinition cfg st' rest with
      | (.error e, st'') => (.error e, st'')
      | (.ok ds, st'') => (.ok (d :: ds), st'')

/-- Lexicographic comparison of char lists by code point, as Python compares
strings. -/
def charListLe : List Char → List Char → Bool
  | [], _ => true
  | _ :: _, [] => false
  | a :: as, b :: bs => if a < b then true else if b < a then false else charListLe as bs

/-- Python string `<=` (lexicographic by code point). -/
def strLe (a b : String) : Bool := charListLe a.data b.data

/-- The sort key of `get_all_definitions`: compare definitions by `name`. -/
def entLe (a b : Entity) : Bool := strLe a.name b.name

/-- Python `sorted(..., key=lambda definition: definition.name)`: the stable
sort by name (any stable sort computes the same list; insertion sort is used
because it is structurally recursive). -/
def sortByName (ds : List Entity) : List Entity :=
  List.insertionSort (fun a b => entLe a b = true) ds

/-- `get_all_definitions`: memoized with `is not None`; resolves every known
name, sorts stably by `name` (Python `sorted` with a key), memoizes. -/
def getAllDefinitions (cfg : IndexConfig) (st : IndexState) :
    Except DIVError (List Entity) × IndexState :=
  match st.allDefinitions with
  | some defs => (.ok defs, st)
  | none =>
    match getDefinitionNames cfg st with
    | (.error e, st1) => (.error e, st1)
    | (.ok names, st1) =>
      match mapGetDefinition cfg st1 names with
      | (.error e, st2) => (.error e, st2)
      | (.ok ds, st2) =>
        (.ok (sortByName ds), { st2 with allDefinitions := some (sortByName ds) })

/-- One public operation on the index. -/
inductive Op where
  | listNames
  | hasName (n : String)
  | resolve (n : String)
  | getAll
deriving DecidableEq, Repr

/-- Run one operation for its state effect (the result, raising or not, is
discarded; Python exceptions do not roll back state). -/
def runOp (cfg : IndexConfig) (st : IndexState) : Op → IndexState
  | .listNames => (getDefinitionNames cfg st).2
  | .hasName n => (hasDefinition cfg st n).2
  | .resolve n => (getDefinition cfg st n).2
  | .getAll => (getAllDefinitions cfg st).2

/-- Run a sequence of operations from a starting state. -/
def runOps (cfg : IndexConfig) : IndexState → List Op → IndexState
  | st, [] => st
  | st, op :: rest => runOps cfg (runOp cfg st op) rest

/-! ### Cache lemmas -/

theorem lookupCache_setCache_self (c : List (String × Entity)) (k : String) (v : Entity) :
    lookupCache (setCache c k v) k = some v := by
  induction c with
  | nil => simp [setCache, lookupCache]
  | cons p rest ih =>
    obtain ⟨k', v'⟩ := p
    by_cases hk : k' = k
    · simp [setCache, hk, lookupCache]
    · rw [setCache, if_neg (by simpa using hk)]
      rw [lookupCache, List.find?_cons_of_neg _ (by simpa using hk)]
      exact ih

theorem lookupCache_setCache_ne (c : List (String × Entity)) (k k' : String) (v : Entity)
    (hk : k ≠ k') : lookupCache (setCache c k' v) k = lookupCache c k := by
  induction c with
  | nil =>
    rw [setCache, lookupCache, lookupCache]
    rw [List.find?_cons_of_neg _ (by simpa using Ne.symm hk)]
  | cons p rest ih =>
    obtain ⟨k₀, v₀⟩ := p
    by_cases h0 : k₀ = k'
    · rw [setCache, if_pos (by simpa using h0)]
      rw [lookupCache, lookupCache]
      rw [List.find?_cons_of_neg _ (by simp [h0]; exact Ne.symm hk)]
      rw [List.find?_cons_of_neg _ (by simp [h0]; exact Ne.symm hk)]
    · rw [setCache, if_neg (by simpa using h0)]
      by_cases h1 : k₀ = k
      · rw [lookupCache, lookupCache]
        rw [List.find?_cons_of_pos _ (by simpa using h1),
            List.find?_cons_of_pos _ (by simpa using h1)]
      · rw [lookupCache, lookupCache,
            List.find?_cons_of_neg _ (by simpa using h1),
            List.find?_cons_of_neg _ (by simpa using h1)]
        exact ih

theorem lookupCache_setCache_isSome (c : List (String × Entity)) (k k' : String) (v : Entity)
    (h : (lookupCache c k).isSome = true) :
    (lookupCache (setCache c k' v) k).isSome = true := by
  by_cases hk : k = k'
  · subst hk; simp [lookupCache_setCache_self]
  · rwa [lookupCache_setCache_ne c k k' v hk]

/-! ### Frame lemmas: which state fields each step leaves unchanged -/

/-- Everything except the resolved-definition cache is unchanged. -/
def SameButCache (st st' : IndexState) : Prop :=
  st'.definitionNames = st.definitionNames ∧ st'.lazyDefinitions = st.lazyDefinitions ∧
  st'.allDefinitions = st.allDefinitions ∧ st'.discoveryCalls = st.discoveryCalls ∧
  st'.factoryCalls = st.factoryCalls ∧ st'.nameListComputes = st.nameListComputes

theorem sameButCache_refl (st : IndexState) : SameButCache st st :=
  ⟨rfl, rfl, rfl, rfl, rfl, rfl⟩

theorem sameButCache_trans {s1 s2 s3 : IndexState}
    (h1 : SameButCache s1 s2) (h2 : SameButCache s2 s3) : SameButCache s1 s3 := by
  obtain ⟨a1, b1, c1, d1, e1, f1⟩ := h1
  obtain ⟨a2, b2, c2, d2, e2, f2⟩ := h2
  exact ⟨a2.trans a1, b2.trans b1, c2.trans c1, d2.trans d1, e2.trans e1, f2.trans f1⟩

theorem validateAndCacheDefinition_frame (cfg : IndexConfig) (st : IndexState)
    (d : Entity) (k : String) :
    SameButCache st (validateAndCacheDefinition cfg st d k).2 := by
  unfold validateAndCacheDefinition
  split
  · split
    · exact sameButCache_refl st
    · exact ⟨rfl, rfl, rfl, rfl, rfl, rfl⟩
  · exact sameButCache_refl st

theorem validateLazyList_frame (cfg : IndexConfig) (lds : List Entity) (st : IndexState) :
    SameButCache st (validateLazyList cfg st lds).2 := by
  induction lds generalizing st with
  | nil => exact sameButCache_refl st
  | cons d rest ih =>
    unfold validateLazyList
    have hf := validateAndCacheDefinition_frame cfg st d d.name
    split
    · rename_i st' heq
      have h2 : (validateAndCacheDefinition cfg st d d.name).2 = st' := by rw [heq]
      rw [h2] at hf
      exact sameButCache_trans hf (ih st')
    · rename_i e st' heq
      have h2 : (validateAndCacheDefinition cfg st d d.name).2 = st' := by rw [heq]
      rw [h2] at hf
      exact hf

/-! ### Characterizations of `_validate_and_cache_definition` -/

theorem validateAndCacheDefinition_eq_ok (cfg : IndexConfig) (st : IndexState)
    (d : Entity) (k : String) (v : Entity)
    (hname : d.name = k) (hv : cfg.validationFn d = .ok v) :
    validateAndCacheDefinition cfg st d k =
      (.ok (), { st with definitionCache := setCache st.definitionCache k v }) := by
  unfold validateAndCacheDefinition
  rw [if_pos (by simpa using hname), hv]

theorem validateAndCacheDefinition_ok (cfg : IndexConfig) (st : IndexState)
    (d : Entity) (k : String) (st2 : IndexState)
    (h : validateAndCacheDefinition cfg st d k = (.ok (), st2)) :
    d.name = k ∧ ∃ v, cfg.validationFn d = .ok v ∧
      st2 = { st with definitionCache := setCache st.definitionCache k v } := by
  unfold validateAndCacheDefinition at h
  split at h
  · rename_i hname
    split at h
    · exact absurd (congrArg Prod.fst h) (by simp)
    · rename_i v hv
      refine ⟨by simpa using hname, v, hv, ?_⟩
      exact (congrArg Prod.snd h).symm
  · exact absurd (congrArg Prod.fst h) (by simp)

/-! ### Characterizations of the lazy-validation loop -/

theorem validateLazyList_ok (cfg : IndexConfig) (lds : List Entity) (st : IndexState)
    (hval : ∀ d ∈ lds, ∃ v, cfg.validationFn d = .ok v) :
    ∃ st', validateLazyList cfg st lds = (.ok (), st') := by
  induction lds generalizing st with
  | nil => exact ⟨st, rfl⟩
  | cons d rest ih =>
    obtain ⟨v, hv⟩ := hval d (by simp)
    have hstep := validateAndCacheDefinition_eq_ok cfg st d d.name v rfl hv
    obtain ⟨st', hrest⟩ :=
      ih ({ st with definitionCache := setCache st.definitionCache d.name v })
        (fun e he => hval e (by simp [he]))
    refine ⟨st', ?_⟩
    rw [validateLazyList, hstep]
    exact hrest

theorem validateLazyList_cache (cfg : IndexConfig) (lds : List Entity)
    (st st' : IndexState) (h : validateLazyList cfg st lds = (.ok (), st')) :
    (∀ d ∈ lds, (lookupCache st'.definitionCache d.name).isSome = true) ∧
    (∀ k, (lookupCache st.definitionCache k).isSome = true →
      (lookupCache st'.definitionCache k).isSome = true) := by
  induction lds generalizing st with
  | nil =>
    rw [validateLazyList] at h
    obtain rfl : st = st' := congrArg Prod.snd h
    exact ⟨by simp, fun k hk => hk⟩
  | cons d rest ih =>
    rw [validateLazyList] at h
    split at h
    · rename_i u stm heq
      obtain ⟨hname, v, hv, hst⟩ := validateAndCacheDefinition_ok cfg st d d.name stm heq
      obtain ⟨h1, h2⟩ := ih stm h
      refine ⟨?_, ?_⟩
      · intro e he
        rcases List.mem_cons.mp he with he | he
        · subst he
          apply h2
          rw [hst]
          simp [lookupCache_setCache_self]
        · exact h1 e he
      · intro k hk
        apply h2
        rw [hst]
        exact lookupCache_setCache_isSome _ _ _ _ hk
    · exact absurd (congrArg Prod.fst h) (by simp)

/-! ### Characterizations of `_get_lazy_definitions` -/

theorem getLazyDefinitions_memo (cfg : IndexConfig) (st : IndexState) (l : List Entity)
    (h : st.lazyDefinitions = some l) : getLazyDefinitions cfg st = (.ok l, st) := by
  unfold getLazyDefinitions
  rw [h]

theorem getLazyDefinitions_frame (cfg : IndexConfig) (st : IndexState) :
    (getLazyDefinitions cfg st).2.factoryCalls = st.factoryCalls ∧
    (getLazyDefinitions cfg st).2.definitionNames = st.definitionNames ∧
    (getLazyDefinitions cfg st).2.allDefinitions = st.allDefinitions ∧
    (getLazyDefinitions cfg st).2.nameListComputes = st.nameListComputes := by
  unfold getLazyDefinitions
  split
  · exact ⟨rfl, rfl, rfl, rfl⟩
  · split
    · exact ⟨rfl, rfl, rfl, rfl⟩
    · rename_i defs hfn
      have hf := validateLazyList_frame cfg defs
        { st with discoveryCalls := st.discoveryCalls + 1, lazyDefinitions := some defs }
      split
      · rename_i u st2 heq
        rw [heq] at hf
        obtain ⟨ha, hb, hc, hd, he, hg⟩ := hf
        exact ⟨he, ha, hc, hg⟩
      · rename_i e st2 heq
        rw [heq] at hf
        obtain ⟨ha, hb, hc, hd, he, hg⟩ := hf
        exact ⟨he, ha, hc, hg⟩

theorem getLazyDefinitions_ok (cfg : IndexConfig) (st : IndexState)
    (lds : List Entity) (st' : IndexState)
    (h : getLazyDefinitions cfg st = (.ok lds, st')) :
    st'.lazyDefinitions = some lds := by
  unfold getLazyDefinitions at h
  split at h
  · rename_i l hl
    cases h
    exact hl
  · split at h
    · exact absurd (congrArg Prod.fst h) (by simp)
    · rename_i defs hfn
      have hf := validateLazyList_frame cfg defs
        { st with discoveryCalls := st.discoveryCalls + 1, lazyDefinitions := some defs }
      split at h
      · rename_i u st2 heq
        rw [heq] at hf
        cases h
        exact hf.2.1
      · exact absurd (congrArg Prod.fst h) (by simp)

/-! ### Characterizations of the name-collection loop -/

theorem computeLazyNames_ok (cfg : IndexConfig) (lds : List Entity) (names : List String)
    (h : computeLazyNames cfg lds = .ok names) :
    names = (lds.filter (fun d => (lookupDef cfg d.name).isNone)).map Entity.name := by
  induction lds generalizing names with
  | nil =>
    rw [computeLazyNames] at h
    cases h
    simp
  | cons d rest ih =>
    rw [computeLazyNames] at h
    split at h
    · rename_i en hen
      split at h
      · rw [List.filter_cons, if_neg (by simp [hen])]
        exact ih names h
      · cases h
    · rename_i hen
      split at h
      · rename_i ns hns
        cases h
        rw [List.filter_cons, if_pos (by simp [hen])]
        rw [List.map_cons]
        rw [ih ns hns]
      · cases h

theorem computeLazyNames_all_ok (cfg : IndexConfig) (lds : List Entity)
    (hagree : ∀ d ∈ lds, ∀ en, lookupDef cfg d.name = some en → entryEqEntity en d = true) :
    ∃ names, computeLazyNames cfg lds = .ok names := by
  induction lds with
  | nil => exact ⟨[], rfl⟩
  | cons d rest ih =>
    obtain ⟨ns, hns⟩ := ih (fun e he en hen => hagree e (by simp [he]) en hen)
    cases hd : lookupDef cfg d.name with
    | some en =>
      rw [computeLazyNames]
      simp only [hd]
      rw [if_pos (hagree d (by simp) en hd)]
      exact ⟨ns, hns⟩
    | none =>
      rw [computeLazyNames]
      simp only [hd, hns]
      exact ⟨d.name :: ns, rfl⟩

theorem computeLazyNames_conflict (cfg : IndexConfig) (lds : List Entity)
    (hconf : ∃ d ∈ lds, ∃ en, lookupDef cfg d.name = some en ∧ entryEqEntity en d = false) :
    ∃ m, computeLazyNames cfg lds = .error (.checkError (dupMsg m)) ∧
      ∃ d ∈ lds, d.name = m ∧ ∃ en, lookupDef cfg m = some en ∧ entryEqEntity en d = false := by
  induction lds with
  | nil => simp at hconf
  | cons d rest ih =>
    cases hd : lookupDef cfg d.name with
    | some en =>
      cases heq : entryEqEntity en d with
      | false =>
        refine ⟨d.name, ?_, d, by simp, rfl, en, hd, heq⟩
        rw [computeLazyNames]
        simp only [hd]
        rw [if_neg (by simp [heq])]
      | true =>
        rw [computeLazyNames]
        simp only [hd]
        rw [if_pos heq]
        have hconf' : ∃ e ∈ rest, ∃ en, lookupDef cfg e.name = some en ∧
            entryEqEntity en e = false := by
          obtain ⟨d0, hd0, en0, hen0, hne0⟩ := hconf
          rcases List.mem_cons.mp hd0 with h0 | h0
          · subst h0
            rw [hd] at hen0
            cases hen0
            rw [heq] at hne0
            cases hne0
          · exact ⟨d0, h0, en0, hen0, hne0⟩
        obtain ⟨m, hm, d0, hd0, hname, en0, hen0, hne0⟩ := ih hconf'
        exact ⟨m, hm, d0, by simp [hd0], hname, en0, hen0, hne0⟩
    | none =>
      have hconf' : ∃ e ∈ rest, ∃ en, lookupDef cfg e.name = some en ∧
          entryEqEntity en e = false := by
        obtain ⟨d0, hd0, en0, hen0, hne0⟩ := hconf
        rcases List.mem_cons.mp hd0 with h0 | h0
        · subst h0
          rw [hd] at hen0
          cases hen0
        · exact ⟨d0, h0, en0, hen0, hne0⟩
      obtain ⟨m, hm, d0, hd0, hname, en0, hen0, hne0⟩ := ih hconf'
      refine ⟨m, ?_, d0, by simp [hd0], hname, en0, hen0, hne0⟩
      rw [computeLazyNames]
      simp only [hd, hm]

/-! ### Characterizations of `get_definition_names` -/

theorem getDefinitionNames_memo (cfg : IndexConfig) (st : IndexState) (ns : List String)
    (h : st.definitionNames = some ns) (hne : ns ≠ []) :
    getDefinitionNames cfg st = (.ok ns, st) := by
  unfold getDefinitionNames
  rw [h]
  cases ns with
  | nil => exact absurd rfl hne
  | cons a l => rfl

theorem getDefinitionNamesCompute_ok (cfg : IndexConfig) (st : IndexState)
    (ns : List String) (st' : IndexState)
    (h : getDefinitionNamesCompute cfg st = (.ok ns, st')) :
    ∃ lds stL lazyNames,
      getLazyDefinitions cfg st = (.ok lds, stL) ∧
      computeLazyNames cfg lds = .ok lazyNames ∧
      ns = eagerKeys cfg ++ lazyNames ∧
      st' = { stL with definitionNames := some ns,
                       nameListComputes := stL.nameListComputes + 1 } := by
  unfold getDefinitionNamesCompute at h
  split at h
  · exact absurd (congrArg Prod.fst h) (by simp)
  · rename_i lds stL heq
    split at h
    · exact absurd (congrArg Prod.fst h) (by simp)
    · rename_i lazyNames hln
      have h1 : (Except.ok (eagerKeys cfg ++ lazyNames) : Except DIVError (List String)) =
          .ok ns := congrArg Prod.fst h
      have h1' : eagerKeys cfg ++ lazyNames = ns := by injection h1
      have h2 :
          ({ stL with
              definitionNames := some (eagerKeys cfg ++ lazyNames),
              nameListComputes := stL.nameListComputes + 1 } : IndexState) = st' :=
        congrArg Prod.snd h
      subst h1'
      exact ⟨lds, stL, lazyNames, heq, hln, rfl, h2.symm⟩

theorem getDefinitionNames_sets_memo (cfg : IndexConfig) (st : IndexState)
    (ns : List String) (st' : IndexState)
    (h : getDefinitionNames cfg st = (.ok ns, st')) :
    st'.definitionNames = some ns := by
  unfold getDefinitionNames at h
  split at h
  · rename_i names hmemo
    split at h
    · obtain ⟨lds, stL, lazyNames, _, _, _, hst⟩ :=
        getDefinitionNamesCompute_ok cfg st ns st' h
      rw [hst]
    · cases h
      exact hmemo
  · obtain ⟨lds, stL, lazyNames, _, _, _, hst⟩ :=
      getDefinitionNamesCompute_ok cfg st ns st' h
    rw [hst]

theorem getDefinitionNames_frame (cfg : IndexConfig) (st : IndexState) :
    (getDefinitionNames cfg st).2.factoryCalls = st.factoryCalls ∧
    (getDefinitionNames cfg st).2.allDefinitions = st.allDefinitions := by
  have hgl := getLazyDefinitions_frame cfg st
  have hcompute : (getDefinitionNamesCompute cfg st).2.factoryCalls = st.factoryCalls ∧
      (getDefinitionNamesCompute cfg st).2.allDefinitions = st.allDefinitions := by
    unfold getDefinitionNamesCompute
    split
    · rename_i e stL heq
      rw [heq] at hgl
      exact ⟨hgl.1, hgl.2.2.1⟩
    · rename_i lds stL heq
      rw [heq] at hgl
      split
      · exact ⟨hgl.1, hgl.2.2.1⟩
      · exact ⟨hgl.1, hgl.2.2.1⟩
  unfold getDefinitionNames
  split
  · split
    · exact hcompute
    · exact ⟨rfl, rfl⟩
  · exact hcompute

theorem hasDefinition_ok (cfg : IndexConfig) (st : IndexState) (n : String)
    (b : Bool) (st1 : IndexState) (h : hasDefinition cfg st n = (.ok b, st1)) :
    ∃ ns, getDefinitionNames cfg st = (.ok ns, st1) ∧ b = decide (n ∈ ns) := by
  unfold hasDefinition at h
  split at h
  · rename_i ns st2 heq
    cases h
    exact ⟨ns, heq, rfl⟩
  · exact absurd (congrArg Prod.fst h) (by simp)

theorem getDefinitionNames_again (cfg : IndexConfig) (st : IndexState)
    (ns : List String) (st' : IndexState)
    (h : getDefinitionNames cfg st = (.ok ns, st')) :
    ∃ st'', getDefinitionNames cfg st' = (.ok ns, st'') := by
  by_cases hne : ns = []
  · subst hne
    have hcomp : getDefinitionNamesCompute cfg st = (.ok [], st') := by
      unfold getDefinitionNames at h
      split at h
      · rename_i names hmemo
        split at h
        · exact h
        · rename_i hnotempty
          cases h
          exact absurd List.isEmpty_nil hnotempty
      · exact h
    obtain ⟨lds, stL, lazyNames, hgl, hcln, hns, hst⟩ :=
      getDefinitionNamesCompute_ok cfg st [] st' hcomp
    have hlz : st'.lazyDefinitions = some lds := by
      rw [hst]
      exact getLazyDefinitions_ok cfg st lds stL hgl
    have hmemo : st'.definitionNames = some [] := by rw [hst]
    have h2 : getDefinitionNamesCompute cfg st' =
        (.ok (eagerKeys cfg ++ lazyNames),
          { st' with definitionNames := some (eagerKeys cfg ++ lazyNames),
                     nameListComputes := st'.nameListComputes + 1 }) := by
      unfold getDefinitionNamesCompute
      rw [getLazyDefinitions_memo cfg st' lds hlz]
      simp only [hcln]
    refine ⟨{ st' with
        definitionNames := some [],
        nameListComputes := st'.nameListComputes + 1 }, ?_⟩
    unfold getDefinitionNames
    rw [hmemo]
    simp only [List.isEmpty_nil, if_true]
    rw [h2, ← hns]
  · have hmemo := getDefinitionNames_sets_memo cfg st ns st' h
    exact ⟨st', getDefinitionNames_memo cfg st' ns hmemo hne⟩

theorem getDefinition_cached (cfg : IndexConfig) (st : IndexState) (n : String)
    (v : Entity) (ns : List String)
    (hmemo : st.definitionNames = some ns) (hmem : n ∈ ns)
    (hcache : lookupCache st.definitionCache n = some v) :
    getDefinition cfg st n = (.ok v, st) := by
  have hne : ns ≠ [] := by
    intro hnil
    subst hnil
    simp at hmem
  have hgdn := getDefinitionNames_memo cfg st ns hmemo hne
  have hhas : hasDefinition cfg st n = (.ok true, st) := by
    unfold hasDefinition
    rw [hgdn]
    simp [hmem]
  unfold getDefinition
  rw [hhas]
  simp only [if_true, hcache]

theorem getDefinition_ok_facts (cfg : IndexConfig) (st : IndexState) (n : String)
    (e : Entity) (st' : IndexState)
    (hid : ∀ x, cfg.validationFn x = .ok x)
    (h : getDefinition cfg st n = (.ok e, st')) :
    (∃ ns, st'.definitionNames = some ns ∧ n ∈ ns) ∧
    lookupCache st'.definitionCache n = some e ∧
    (st'.factoryCalls = st.factoryCalls ∨ st'.factoryCalls = st.factoryCalls ++ [n]) := by
  unfold getDefinition at h
  split at h
  · exact absurd (congrArg Prod.fst h) (by simp)
  · rename_i has st1 hhas
    obtain ⟨ns, hgdn, hb⟩ := hasDefinition_ok cfg st n has st1 hhas
    have hfc1 : st1.factoryCalls = st.factoryCalls := by
      have := (getDefinitionNames_frame cfg st).1
      rw [hgdn] at this
      exact this
    have hmemo1 : st1.definitionNames = some ns :=
      getDefinitionNames_sets_memo cfg st ns st1 hgdn
    split at h
    · -- has = true
      rename_i htrue
      have hmem : n ∈ ns := by
        rw [htrue] at hb
        exact of_decide_eq_true hb.symm
      split at h
      · -- cache hit
        rename_i cached hcached
        cases h
        exact ⟨⟨ns, hmemo1, hmem⟩, hcached, Or.inl hfc1⟩
      · rename_i hmiss
        split at h
        · -- lookupDef none: keyError
          exact absurd (congrArg Prod.fst h) (by simp)
        · -- eager entity
          rename_i e0 hdef
          split at h
          · exact absurd (congrArg Prod.fst h) (by simp)
          · rename_i v hv
            have hv' : v = e0 := by
              rw [hid e0] at hv
              exact (Except.ok.inj hv).symm
            have he : e0 = e := Except.ok.inj (congrArg Prod.fst h)
            have hst : ({ st1 with
                definitionCache := setCache st1.definitionCache n v } : IndexState) = st' :=
              congrArg Prod.snd h
            refine ⟨⟨ns, ?_, hmem⟩, ?_, ?_⟩
            · rw [← hst]
              exact hmemo1
            · rw [← hst]
              show lookupCache (setCache st1.definitionCache n v) n = some e
              rw [lookupCache_setCache_self, hv', he]
            · left
              rw [← hst]
              exact hfc1
        · -- factory
          rename_i r hdef
          split at h
          · exact absurd (congrArg Prod.fst h) (by simp)
          · rename_i d0
            split at h
            · rename_i u st3 hvacd
              obtain ⟨hname, v, hv, hst3⟩ :=
                validateAndCacheDefinition_ok cfg _ d0 n st3 hvacd
              have hv' : v = d0 := by
                rw [hid d0] at hv
                exact (Except.ok.inj hv).symm
              have he : d0 = e := Except.ok.inj (congrArg Prod.fst h)
              have hst : st3 = st' := congrArg Prod.snd h
              refine ⟨⟨ns, ?_, hmem⟩, ?_, ?_⟩
              · rw [← hst, hst3]
                exact hmemo1
              · rw [← hst, hst3]
                show lookupCache (setCache _ n v) n = some e
                rw [lookupCache_setCache_self, hv', he]
              · right
                rw [← hst, hst3]
                show st1.factoryCalls ++ [n] = st.factoryCalls ++ [n]
                rw [hfc1]
            · exact absurd (congrArg Prod.fst h) (by simp)
    · -- has = false: not-found error
      split at h
      · exact absurd (congrArg Prod.fst h) (by simp)
      · exact absurd (congrArg Prod.fst h) (by simp)

/-! ### The not-found message enumerates the known names -/

theorem joinComma_mem_decomp (xs : List String) (m : String) (hm : m ∈ xs) :
    ∃ p q : String, joinComma xs = p ++ (m ++ q) := by
  induction xs with
  | nil => simp at hm
  | cons x rest ih =>
    cases rest with
    | nil =>
      rcases List.mem_singleton.mp hm with rfl
      refine ⟨"", "", ?_⟩
      rw [joinComma, String.append_empty, String.empty_append]
    | cons y ys =>
      have hj : joinComma (x :: y :: ys) = x ++ ", " ++ joinComma (y :: ys) := rfl
      rcases List.mem_cons.mp hm with rfl | hm'
      · refine ⟨"", ", " ++ joinComma (y :: ys), ?_⟩
        rw [hj, String.empty_append, String.append_assoc]
      · obtain ⟨p, q, hpq⟩ := ih hm'
        refine ⟨x ++ ", " ++ p, q, ?_⟩
        rw [hj, hpq]
        simp only [String.append_assoc]

theorem notFoundMsg_mem_decomp (kind name : String) (found : List String)
    (m : String) (hm : m ∈ found) :
    ∃ pre post, notFoundMsg kind name found = pre ++ quoteName m ++ post := by
  obtain ⟨p, q, hpq⟩ := joinComma_mem_decomp (found.map quoteName) (quoteName m)
    (List.mem_map_of_mem quoteName hm)
  refine ⟨"Could not find " ++ kind ++ " " ++ quoteName name ++ ". Found: " ++ p,
    q ++ ".", ?_⟩
  rw [notFoundMsg, hpq]
  simp only [String.append_assoc]

/-! ### The sort comparison is transitive and total -/

theorem charListLe_trans (a : List Char) :
    ∀ b c, charListLe a b = true → charListLe b c = true → charListLe a c = true := by
  induction a with
  | nil => intro b c _ _; rfl
  | cons x xs ih =>
    intro b c hab hbc
    cases b with
    | nil => rw [charListLe] at hab; cases hab
    | cons y ys =>
      cases c with
      | nil => rw [charListLe] at hbc; cases hbc
      | cons z zs =>
        rw [charListLe] at hab hbc ⊢
        rcases lt_trichotomy x y with hxy | hxy | hxy
        · rw [if_pos hxy] at hab
          rcases lt_trichotomy y z with hyz | hyz | hyz
          · rw [if_pos (lt_trans hxy hyz)]
          · subst hyz; rw [if_pos hxy]
          · rw [if_neg (lt_asymm hyz), if_pos hyz] at hbc; cases hbc
        · subst hxy
          rcases lt_trichotomy x z with hxz | hxz | hxz
          · rw [if_pos hxz]
          · subst hxz
            rw [if_neg (lt_irrefl x), if_neg (lt_irrefl x)] at hab hbc ⊢
            exact ih ys zs hab hbc
          · rw [if_neg (lt_asymm hxz), if_pos hxz] at hbc; cases hbc
        · rw [if_neg (lt_asymm hxy), if_pos hxy] at hab; cases hab

theorem charListLe_total (a : List Char) :
    ∀ b, (charListLe a b || charListLe b a) = true := by
  induction a with
  | nil => intro b; rfl
  | cons x xs ih =>
    intro b
    cases b with
    | nil => rfl
    | cons y ys =>
      rw [charListLe, charListLe]
      rcases lt_trichotomy x y with hxy | hxy | hxy
      · rw [if_pos hxy]; rfl
      · subst hxy
        simp only [lt_self_iff_false, if_false]
        exact ih ys
      · rw [if_neg (lt_asymm hxy), if_pos hxy, if_pos hxy]
        rfl

theorem entLe_trans (a b c : Entity) (hab : entLe a b = true) (hbc : entLe b c = true) :
    entLe a c = true :=
  charListLe_trans a.name.data b.name.data c.name.data hab hbc

theorem entLe_total (a b : Entity) : (entLe a b || entLe b a) = true :=
  charListLe_total a.name.data b.name.data

instance : IsTrans Entity (fun a b => entLe a b = true) :=
  ⟨fun a b c => entLe_trans a b c⟩

instance : IsTotal Entity (fun a b => entLe a b = true) :=
  ⟨fun a b => by
    have h := entLe_total a b
    rcases Bool.or_eq_true_iff.mp h with h1 | h1
    · exact Or.inl h1
    · exact Or.inr h1⟩

/-! ### Discovery runs at most once (when it does not raise) -/

/-- Invariant: the discovery function has run at most once so far, and has not
run at all while its memo slot is still unset. -/
def DiscInv (st : IndexState) : Prop :=
  st.discoveryCalls ≤ 1 ∧ (st.lazyDefinitions = none → st.discoveryCalls = 0)

theorem discInv_init : DiscInv initState :=
  ⟨Nat.zero_le 1, fun _ => rfl⟩

theorem getLazyDefinitions_inv (cfg : IndexConfig) (l : List Entity) (st : IndexState)
    (hfn : cfg.lazyDefinitionsFn = .ok l) (hP : DiscInv st) :
    DiscInv (getLazyDefinitions cfg st).2 := by
  unfold getLazyDefinitions
  split
  · exact hP
  · rename_i hnone
    split
    · rename_i e heq
      rw [hfn] at heq
      cases heq
    · rename_i defs heq
      rw [hfn] at heq
      obtain rfl : l = defs := Except.ok.inj heq
      have hf := validateLazyList_frame cfg l
        { st with discoveryCalls := st.discoveryCalls + 1, lazyDefinitions := some l }
      have h0 : st.discoveryCalls = 0 := hP.2 hnone
      split
      · rename_i u st2 hvll
        rw [hvll] at hf
        refine ⟨?_, ?_⟩
        · rw [hf.2.2.2.1]
          show st.discoveryCalls + 1 ≤ 1
          rw [h0]
        · intro hx
          rw [hf.2.1] at hx
          cases hx
      · rename_i e st2 hvll
        rw [hvll] at hf
        refine ⟨?_, ?_⟩
        · rw [hf.2.2.2.1]
          show st.discoveryCalls + 1 ≤ 1
          rw [h0]
        · intro hx
          rw [hf.2.1] at hx
          cases hx

theorem getDefinitionNamesCompute_inv (cfg : IndexConfig) (l : List Entity)
    (st : IndexState) (hfn : cfg.lazyDefinitionsFn = .ok l) (hP : DiscInv st) :
    DiscInv (getDefinitionNamesCompute cfg st).2 := by
  unfold getDefinitionNamesCompute
  have hgl := getLazyDefinitions_inv cfg l st hfn hP
  split
  · rename_i e stL heq
    rw [heq] at hgl
    exact hgl
  · rename_i lds stL heq
    rw [heq] at hgl
    split
    · exact hgl
    · exact ⟨hgl.1, hgl.2⟩

theorem getDefinitionNames_inv (cfg : IndexConfig) (l : List Entity) (st : IndexState)
    (hfn : cfg.lazyDefinitionsFn = .ok l) (hP : DiscInv st) :
    DiscInv (getDefinitionNames cfg st).2 := by
  unfold getDefinitionNames
  split
  · split
    · exact getDefinitionNamesCompute_inv cfg l st hfn hP
    · exact hP
  · exact getDefinitionNamesCompute_inv cfg l st hfn hP

theorem hasDefinition_inv (cfg : IndexConfig) (l : List Entity) (st : IndexState)
    (n : String) (hfn : cfg.lazyDefinitionsFn = .ok l) (hP : DiscInv st) :
    DiscInv (hasDefinition cfg st n).2 := by
  unfold hasDefinition
  have hgn := getDefinitionNames_inv cfg l st hfn hP
  split
  · rename_i ns st1 heq
    rw [heq] at hgn
    exact hgn
  · rename_i e st1 heq
    rw [heq] at hgn
    exact hgn

theorem getDefinition_inv (cfg : IndexConfig) (l : List Entity) (st : IndexState)
    (n : String) (hfn : cfg.lazyDefinitionsFn = .ok l) (hP : DiscInv st) :
    DiscInv (getDefinition cfg st n).2 := by
  unfold getDefinition
  have hhd := hasDefinition_inv cfg l st n hfn hP
  split
  · rename_i e st1 heq
    rw [heq] at hhd
    exact hhd
  · rename_i has st1 heq
    rw [heq] at hhd
    split
    · split
      · exact hhd
      · split
        · exact hhd
        · split
          · exact hhd
          · exact ⟨hhd.1, hhd.2⟩
        · rename_i r hdef
          split
          · exact ⟨hhd.1, hhd.2⟩
          · rename_i d0
            have hf := validateAndCacheDefinition_frame cfg
              { st1 with factoryCalls := st1.factoryCalls ++ [n] } d0 n
            split
            · rename_i u st3 hvacd
              rw [hvacd] at hf
              refine ⟨?_, ?_⟩
              · rw [hf.2.2.2.1]
                exact hhd.1
              · intro hx
                rw [hf.2.1] at hx
                rw [hf.2.2.2.1]
                exact hhd.2 hx
            · rename_i e st3 hvacd
              rw [hvacd] at hf
              refine ⟨?_, ?_⟩
              · rw [hf.2.2.2.1]
                exact hhd.1
              · intro hx
                rw [hf.2.1] at hx
                rw [hf.2.2.2.1]
                exact hhd.2 hx
    · have hgn2 := getDefinitionNames_inv cfg l st1 hfn hhd
      split
      · rename_i names st2 heq2
        rw [heq2] at hgn2
        exact hgn2
      · rename_i e st2 heq2
        rw [heq2] at hgn2
        exact hgn2

theorem mapGetDefinition_inv (cfg : IndexConfig) (l : List Entity)
    (names : List String) (st : IndexState)
    (hfn : cfg.lazyDefinitionsFn = .ok l) (hP : DiscInv st) :
    DiscInv (mapGetDefinition cfg st names).2 := by
  induction names generalizing st with
  | nil => exact hP
  | cons n rest ih =>
    unfold mapGetDefinition
    have hgd := getDefinition_inv cfg l st n hfn hP
    split
    · rename_i e st1 heq
      rw [heq] at hgd
      exact hgd
    · rename_i d st1 heq
      rw [heq] at hgd
      have hrest := ih st1 hgd
      split
      · rename_i e st2 heq2
        rw [heq2] at hrest
        exact hrest
      · rename_i ds st2 heq2
        rw [heq2] at hrest
        exact hrest

theorem getAllDefinitions_inv (cfg : IndexConfig) (l : List Entity) (st : IndexState)
    (hfn : cfg.lazyDefinitionsFn = .ok l) (hP : DiscInv st) :
    DiscInv (getAllDefinitions cfg st).2 := by
  unfold getAllDefinitions
  split
  · exact hP
  · have hgn := getDefinitionNames_inv cfg l st hfn hP
    split
    · rename_i e st1 heq
      rw [heq] at hgn
      exact hgn
    · rename_i names st1 heq
      rw [heq] at hgn
      have hmap := mapGetDefinition_inv cfg l names st1 hfn hgn
      split
      · rename_i e st2 heq2
        rw [heq2] at hmap
        exact hmap
      · rename_i ds st2 heq2
        rw [heq2] at hmap
        exact ⟨hmap.1, hmap.2⟩

theorem runOp_inv (cfg : IndexConfig) (l : List Entity) (st : IndexState) (op : Op)
    (hfn : cfg.lazyDefinitionsFn = .ok l) (hP : DiscInv st) :
    DiscInv (runOp cfg st op) := by
  cases op with
  | listNames => exact getDefinitionNames_inv cfg l st hfn hP
  | hasName n => exact hasDefinition_inv cfg l st n hfn hP
  | resolve n => exact getDefinition_inv cfg l st n hfn hP
  | getAll => exact getAllDefinitions_inv cfg l st hfn hP

theorem runOps_inv (cfg : IndexConfig) (l : List Entity) (st : IndexState)
    (ops : List Op) (hfn : cfg.lazyDefinitionsFn = .ok l) (hP : DiscInv st) :
    DiscInv (runOps cfg st ops) := by
  induction ops generalizing st with
  | nil => exact hP
  | cons op rest ih => exact ih (runOp cfg st op) (runOp_inv cfg l st op hfn hP)

/-! ### Characterizations of `get_all_definitions` and helpers for the claims -/

theorem getAllDefinitions_memo (cfg : IndexConfig) (st : IndexState) (l : List Entity)
    (h : st.allDefinitions = some l) : getAllDefinitions cfg st = (.ok l, st) := by
  unfold getAllDefinitions
  rw [h]

theorem getAllDefinitions_ok_fresh (cfg : IndexConfig) (st : IndexState)
    (ds : List Entity) (st1 : IndexState)
    (hfresh : st.allDefinitions = none)
    (h : getAllDefinitions cfg st = (.ok ds, st1)) :
    ∃ names stn raw stm,
      getDefinitionNames cfg st = (.ok names, stn) ∧
      mapGetDefinition cfg stn names = (.ok raw, stm) ∧
      ds = sortByName raw ∧
      st1.allDefinitions = some ds := by
  unfold getAllDefinitions at h
  split at h
  · rename_i l hl
    rw [hfresh] at hl
    cases hl
  · split at h
    · exact absurd (congrArg Prod.fst h) (by simp)
    · rename_i names stn heq
      split at h
      · exact absurd (congrArg Prod.fst h) (by simp)
      · rename_i raw stm heq2
        have h1 : (Except.ok (sortByName raw) : Except DIVError (List Entity)) =
            .ok ds := congrArg Prod.fst h
        have h1' : sortByName raw = ds := by injection h1
        have h2 : ({ stm with allDefinitions := some (sortByName raw) } : IndexState) =
            st1 := congrArg Prod.snd h
        subst h1'
        exact ⟨names, stn, raw, stm, heq, heq2, rfl, by rw [← h2]⟩

theorem getLazyDefinitions_build (cfg : IndexConfig) (l : List Entity)
    (st stV : IndexState) (hnone : st.lazyDefinitions = none)
    (hfn : cfg.lazyDefinitionsFn = .ok l)
    (hvll : validateLazyList cfg
      { st with discoveryCalls := st.discoveryCalls + 1, lazyDefinitions := some l } l =
      (.ok (), stV)) :
    getLazyDefinitions cfg st = (.ok l, stV) := by
  unfold getLazyDefinitions
  rw [hnone, hfn]
  simp only [hvll]

theorem getDefinitionNames_build (cfg : IndexConfig) (l : List Entity)
    (st stV : IndexState) (lazyNames : List String)
    (hmem : st.definitionNames = none)
    (hgl : getLazyDefinitions cfg st = (.ok l, stV))
    (hcln : computeLazyNames cfg l = .ok lazyNames) :
    getDefinitionNames cfg st =
      (.ok (eagerKeys cfg ++ lazyNames),
        { stV with definitionNames := some (eagerKeys cfg ++ lazyNames),
                   nameListComputes := stV.nameListComputes + 1 }) := by
  unfold getDefinitionNames getDefinitionNamesCompute
  rw [hmem, hgl]
  simp only [hcln]

theorem getLazyDefinitions_ok_fn (cfg : IndexConfig) (l : List Entity)
    (st : IndexState) (l' : List Entity) (stL : IndexState)
    (hfn : cfg.lazyDefinitionsFn = .ok l) (hnone : st.lazyDefinitions = none)
    (h : getLazyDefinitions cfg st = (.ok l', stL)) : l' = l := by
  unfold getLazyDefinitions at h
  split at h
  · rename_i l0 hl0
    rw [hnone] at hl0
    cases hl0
  · split at h
    · rename_i e heq
      rw [hfn] at heq
      cases heq
    · rename_i defs heq
      rw [hfn] at heq
      obtain rfl : l = defs := Except.ok.inj heq
      split at h
      · cases h
        rfl
      · exact absurd (congrArg Prod.fst h) (by simp)

theorem lookupDef_mem_eagerKeys (cfg : IndexConfig) (n : String) (en : Entry)
    (h : lookupDef cfg n = some en) : n ∈ eagerKeys cfg := by
  unfold lookupDef at h
  cases hf : cfg.definitions.find? (fun p => p.1 == n) with
  | none =>
    rw [hf] at h
    cases h
  | some p =>
    have hp := List.find?_some hf
    have hmem := List.mem_of_find?_eq_some hf
    have hpn : p.1 = n := by simpa using hp
    rw [← hpn]
    exact List.mem_map_of_mem (fun p => p.1) hmem

theorem hasDefinition_build (cfg : IndexConfig) (st : IndexState) (n : String)
    (ns : List String) (st1 : IndexState)
    (hgdn : getDefinitionNames cfg st = (.ok ns, st1)) (hmem : n ∈ ns) :
    hasDefinition cfg st n = (.ok true, st1) := by
  unfold hasDefinition
  rw [hgdn]
  simp [hmem]

theorem getDefinition_via_has (cfg : IndexConfig) (st : IndexState) (n : String)
    (st1 : IndexState) (v : Entity)
    (hhas : hasDefinition cfg st n = (.ok true, st1))
    (hcache : lookupCache st1.definitionCache n = some v) :
    getDefinition cfg st n = (.ok v, st1) := by
  unfold getDefinition
  rw [hhas]
  simp only [if_true, hcache]

theorem hasDefinition_err (cfg : IndexConfig) (st : IndexState) (n : String)
    (e : DIVError) (st1 : IndexState)
    (h : getDefinitionNames cfg st = (.error e, st1)) :
    hasDefinition cfg st n = (.error e, st1) := by
  unfold hasDefinition
  rw [h]

theorem getDefinition_err (cfg : IndexConfig) (st : IndexState) (n : String)
    (e : DIVError) (st1 : IndexState)
    (h : getDefinitionNames cfg st = (.error e, st1)) :
    getDefinition cfg st n = (.error e, st1) := by
  unfold getDefinition
  rw [hasDefinition_err cfg st n e st1 h]

theorem getAllDefinitions_err (cfg : IndexConfig) (st : IndexState)
    (e : DIVError) (st1 : IndexState) (hfresh : st.allDefinitions = none)
    (h : getDefinitionNames cfg st = (.error e, st1)) :
    getAllDefinitions cfg st = (.error e, st1) := by
  unfold getAllDefinitions
  rw [hfresh, h]

theorem getDefinitionNames_build_err (cfg : IndexConfig) (l : List Entity)
    (st stV : IndexState) (e : DIVError)
    (hmem : st.definitionNames = none)
    (hgl : getLazyDefinitions cfg st = (.ok l, stV))
    (hcln : computeLazyNames cfg l = .error e) :
    getDefinitionNames cfg st = (.error e, stV) := by
  unfold getDefinitionNames getDefinitionNamesCompute
  rw [hmem, hgl]
  simp only [hcln]

/-! ### Concrete index configurations for witnesses and counterexamples -/

def entA : Entity := ⟨"a", 0⟩

def entB : Entity := ⟨"b", 0⟩

def entC : Entity := ⟨"c", 0⟩

/-- The spec §8 scenario: an eager entity, an eager factory, one lazy entity. -/
def cfgDemo : IndexConfig :=
  { definitionClassName := "ScheduleDefinition"
    definitionKind := "schedule"
    definitions := [("a", .defn entA), ("b", .factory (.ok entB))]
    validationFn := fun e => .ok e
    lazyDefinitionsFn := .ok [entC] }

/-- One eager entity, and a validation function that transforms the entity
(as the collaborator contract allows). -/
def cfgTransform : IndexConfig :=
  { definitionClassName := "ScheduleDefinition"
    definitionKind := "schedule"
    definitions := [("a", .defn entA)]
    validationFn := fun e => .ok ⟨e.name, e.payload + 1⟩
    lazyDefinitionsFn := .ok [] }

/-- Empty eager map and empty lazy batch. -/
def cfgEmpty : IndexConfig :=
  { definitionClassName := "ScheduleDefinition"
    definitionKind := "schedule"
    definitions := []
    validationFn := fun e => .ok e
    lazyDefinitionsFn := .ok [] }

/-- A discovery function that raises. -/
def cfgRaise : IndexConfig :=
  { definitionClassName := "ScheduleDefinition"
    definitionKind := "schedule"
    definitions := []
    validationFn := fun e => .ok e
    lazyDefinitionsFn := .error "discovery failed" }

/-- A factory registered under key `"b"` whose product is named `"c"`. -/
def cfgMismatch : IndexConfig :=
  { definitionClassName := "ScheduleDefinition"
    definitionKind := "schedule"
    definitions := [("b", .factory (.ok entC))]
    validationFn := fun e => .ok e
    lazyDefinitionsFn := .ok [] }

/-- Eager `"a"` conflicting with an unequal lazy-discovered `"a"`. -/
def cfgConflict : IndexConfig :=
  { definitionClassName := "ScheduleDefinition"
    definitionKind := "schedule"
    definitions := [("a", .defn entA)]
    validationFn := fun e => .ok e
    lazyDefinitionsFn := .ok [⟨"a", 5⟩] }

/-- Eager `"a"` equal to the lazy-discovered `"a"`. -/
def cfgAgree : IndexConfig :=
  { definitionClassName := "ScheduleDefinition"
    definitionKind := "schedule"
    definitions := [("a", .defn entA)]
    validationFn := fun e => .ok e
    lazyDefinitionsFn := .ok [entA] }

/-! ### Claim theorems -/

/-- C2: for every index, a successful `listNames()` from a fresh instance returns
the eager map's keys in their original insertion order followed by the names of
lazy-discovered entities that are not eager-map keys, in discovery order; and
when the discovery function is absent or returns an empty sequence, `listNames()`
returns exactly the eager map's keys in original order. -/
theorem listNames_order (cfg : IndexConfig) :
    (∀ lds names st', cfg.lazyDefinitionsFn = .ok lds →
      getDefinitionNames cfg initState = (.ok names, st') →
      names = eagerKeys cfg ++
        ((lds.filter (fun d => (lookupDef cfg d.name).isNone)).map Entity.name)) ∧
    (cfg.lazyDefinitionsFn = .ok [] →
      (getDefinitionNames cfg initState).1 = .ok (eagerKeys cfg)) := by
  constructor
  · intro lds names st' hfn h
    have hcomp : getDefinitionNamesCompute cfg initState = (.ok names, st') := h
    obtain ⟨lds', stL, lazyNames, hgl, hcln, hns, hst⟩ :=
      getDefinitionNamesCompute_ok cfg initState names st' hcomp
    obtain rfl : lds' = lds :=
      getLazyDefinitions_ok_fn cfg lds initState lds' stL hfn rfl hgl
    rw [hns, computeLazyNames_ok cfg _ lazyNames hcln]
  · intro hfn
    have hgl := getLazyDefinitions_build cfg [] initState
      { initState with discoveryCalls := initState.discoveryCalls + 1,
                       lazyDefinitions := some [] } rfl hfn rfl
    have hgdn := getDefinitionNames_build cfg [] initState _ [] rfl hgl rfl
    rw [hgdn]
    simp

/-- C2 witness: on the demo configuration the names are the two eager keys
followed by the lazy-only name; on the empty configuration they are the (empty)
eager key list. -/
theorem listNames_order_witness :
    (["a", "b", "c"] : List String) = eagerKeys cfgDemo ++
      (([entC].filter (fun d => (lookupDef cfgDemo d.name).isNone)).map Entity.name) ∧
    (getDefinitionNames cfgEmpty initState).1 = .ok (eagerKeys cfgEmpty) :=
  ⟨(listNames_order cfgDemo).1 [entC] ["a", "b", "c"]
      (getDefinitionNames cfgDemo initState).2 rfl (by decide),
    (listNames_order cfgEmpty).2 rfl⟩

/-- C3: when the eager-map value for a name with no cached resolution is already
an entity, `resolve` stores the validation function's result in the cache under
that name but returns the original unvalidated instance. -/
theorem resolve_eager_returns_original (cfg : IndexConfig) (st st1 : IndexState)
    (n : String) (e v : Entity)
    (hhas : hasDefinition cfg st n = (.ok true, st1))
    (hcache : lookupCache st1.definitionCache n = none)
    (hdef : lookupDef cfg n = some (.defn e))
    (hval : cfg.validationFn e = .ok v) :
    (getDefinition cfg st n).1 = .ok e ∧
    lookupCache (getDefinition cfg st n).2.definitionCache n = some v := by
  have heq : getDefinition cfg st n =
      (.ok e, { st1 with definitionCache := setCache st1.definitionCache n v }) := by
    unfold getDefinition
    rw [hhas]
    simp only [if_true, hcache, hdef, hval]
  rw [heq]
  exact ⟨rfl, lookupCache_setCache_self _ _ _⟩

/-- C3 witness: with a transforming validation function, resolving the eager
entity `"a"` returns the original `⟨"a", 0⟩` while the cache holds the validated
`⟨"a", 1⟩`. -/
theorem resolve_eager_returns_original_witness :
    (getDefinition cfgTransform initState "a").1 = .ok entA ∧
    lookupCache (getDefinition cfgTransform initState "a").2.definitionCache "a" =
      some ⟨"a", 1⟩ :=
  resolve_eager_returns_original cfgTransform initState
    (hasDefinition cfgTransform initState "a").2 "a" entA ⟨"a", 1⟩
    (by decide) (by decide) rfl rfl

/-- C5: a factory whose produced entity's name differs from its registration key
fails with the name-mismatch condition, and the resolved cache gains no entry
for that key. -/
theorem factory_name_mismatch (cfg : IndexConfig) (st st1 : IndexState)
    (n : String) (d : Entity)
    (hhas : hasDefinition cfg st n = (.ok true, st1))
    (hcache : lookupCache st1.definitionCache n = none)
    (hdef : lookupDef cfg n = some (.factory (.ok d)))
    (hmm : d.name ≠ n) :
    (getDefinition cfg st n).1 = .error (.checkError
      (nameMismatchMsg cfg.definitionKind n cfg.definitionClassName d.name)) ∧
    lookupCache (getDefinition cfg st n).2.definitionCache n = none := by
  have hvacd : validateAndCacheDefinition cfg
      { st1 with factoryCalls := st1.factoryCalls ++ [n] } d n =
      (.error (.checkError
        (nameMismatchMsg cfg.definitionKind n cfg.definitionClassName d.name)),
        { st1 with factoryCalls := st1.factoryCalls ++ [n] }) := by
    unfold validateAndCacheDefinition
    rw [if_neg (by simpa using hmm)]
  have heq : getDefinition cfg st n =
      (.error (.checkError
        (nameMismatchMsg cfg.definitionKind n cfg.definitionClassName d.name)),
        { st1 with factoryCalls := st1.factoryCalls ++ [n] }) := by
    unfold getDefinition
    rw [hhas]
    simp only [if_true, hcache, hdef, hvacd]
  rw [heq]
  exact ⟨rfl, hcache⟩

/-- C5 witness: the factory registered under `"b"` produces an entity named
`"c"`; resolving `"b"` fails with the name-mismatch message and caches nothing. -/
theorem factory_name_mismatch_witness :
    (getDefinition cfgMismatch initState "b").1 = .error (.checkError
      (nameMismatchMsg cfgMismatch.definitionKind "b" cfgMismatch.definitionClassName
        entC.name)) ∧
    lookupCache (getDefinition cfgMismatch initState "b").2.definitionCache "b" = none :=
  factory_name_mismatch cfgMismatch initState
    (hasDefinition cfgMismatch initState "b").2 "b" entC
    (by decide) (by decide) rfl (by decide)

/-- C6: resolving a name absent from the name list fails with the
invariant-violation condition whose message is built from the full known-name
list, and that message contains every known name (in quotes) as a substring
decomposition. -/
theorem resolve_missing_not_found (cfg : IndexConfig) (st : IndexState) (n : String)
    (names : List String) (st1 : IndexState)
    (hn : getDefinitionNames cfg st = (.ok names, st1))
    (hmem : n ∉ names) :
    (∃ st2, getDefinition cfg st n =
      (.error (.invariantViolation (notFoundMsg cfg.definitionKind n names)), st2)) ∧
    ∀ m ∈ names, ∃ pre post,
      notFoundMsg cfg.definitionKind n names = pre ++ quoteName m ++ post := by
  constructor
  · have hhas : hasDefinition cfg st n = (.ok false, st1) := by
      unfold hasDefinition
      rw [hn]
      simp [hmem]
    obtain ⟨st2, hn2⟩ := getDefinitionNames_again cfg st names st1 hn
    refine ⟨st2, ?_⟩
    unfold getDefinition
    rw [hhas]
    simp only [Bool.false_eq_true, if_false, hn2]
  · intro m hm
    exact notFoundMsg_mem_decomp cfg.definitionKind n names m hm

/-- C6 witness: resolving the unknown name `"z"` on the demo configuration fails
with the not-found message listing `a`, `b`, `c`. -/
theorem resolve_missing_not_found_witness :
    (∃ st2, getDefinition cfgDemo initState "z" =
      (.error (.invariantViolation
        (notFoundMsg cfgDemo.definitionKind "z" ["a", "b", "c"])), st2)) ∧
    ∀ m ∈ (["a", "b", "c"] : List String), ∃ pre post,
      notFoundMsg cfgDemo.definitionKind "z" ["a", "b", "c"] =
        pre ++ quoteName m ++ post :=
  resolve_missing_not_found cfgDemo initState "z" ["a", "b", "c"]
    (getDefinitionNames cfgDemo initState).2 (by decide) (by decide)

/-- C9 counterexample: with an empty eager map and empty lazy batch, the first
`listNames()` succeeds with the empty list, but the truthiness-style memo test
treats the memoized empty list as unset, so a second `listNames()` recomputes:
the name list is computed twice, refuting "computed at most once". -/
theorem nameList_recompute_cex :
    (getDefinitionNames cfgEmpty initState).1 = .ok [] ∧
    (runOps cfgEmpty initState [.listNames, .listNames]).nameListComputes = 2 := by
  decide

/-- C9 (amended): after a first successful `listNames()` whose result is
nonempty, the name list is memoized and every later call returns it with the
state (including the computation counter) unchanged; a memoized empty list is
recomputed on each call. -/
theorem nameList_memoized_nonempty (cfg : IndexConfig) (st : IndexState)
    (names : List String) (st1 : IndexState)
    (h : getDefinitionNames cfg st = (.ok names, st1)) (hne : names ≠ []) :
    st1.definitionNames = some names ∧
    getDefinitionNames cfg st1 = (.ok names, st1) := by
  have hmemo := getDefinitionNames_sets_memo cfg st names st1 h
  exact ⟨hmemo, getDefinitionNames_memo cfg st1 names hmemo hne⟩

/-- C9 witness: on the demo configuration the first `listNames()` memoizes
`["a", "b", "c"]` and the second call returns it with the state unchanged. -/
theorem nameList_memoized_nonempty_witness :
    (getDefinitionNames cfgDemo initState).2.definitionNames =
      some ["a", "b", "c"] ∧
    getDefinitionNames cfgDemo (getDefinitionNames cfgDemo initState).2 =
      (.ok ["a", "b", "c"], (getDefinitionNames cfgDemo initState).2) :=
  nameList_memoized_nonempty cfgDemo initState ["a", "b", "c"]
    (getDefinitionNames cfgDemo initState).2 (by decide) (by decide)

/-- C10: `listNames()` and `hasName(name)` never invoke an eager-map factory:
the factory-invocation record is unchanged by either call, on any state. -/
theorem listNames_hasName_no_factory (cfg : IndexConfig) (st : IndexState)
    (n : String) :
    (getDefinitionNames cfg st).2.factoryCalls = st.factoryCalls ∧
    (hasDefinition cfg st n).2.factoryCalls = st.factoryCalls := by
  refine ⟨(getDefinitionNames_frame cfg st).1, ?_⟩
  have hg := (getDefinitionNames_frame cfg st).1
  unfold hasDefinition
  split
  · rename_i ns st1 heq
    rw [heq] at hg
    exact hg
  · rename_i e st1 heq
    rw [heq] at hg
    exact hg

/-- C8 counterexample: a raising discovery function is not memoized, so two
`listNames()` calls invoke it twice, refuting "invoked at most once ...
whether any of them raise". -/
theorem discovery_twice_cex :
    cfgRaise.lazyDefinitionsFn = .error "discovery failed" ∧
    (runOps cfgRaise initState [.listNames, .listNames]).discoveryCalls = 2 := by
  decide

/-- C8 (amended): provided the discovery function does not raise, any sequence
of operations on one index instance invokes it at most once. -/
theorem discovery_at_most_once (cfg : IndexConfig) (l : List Entity)
    (ops : List Op) (hfn : cfg.lazyDefinitionsFn = .ok l) :
    (runOps cfg initState ops).discoveryCalls ≤ 1 :=
  (runOps_inv cfg l initState ops hfn discInv_init).1

/-- C8 witness: a mixed operation sequence on the demo configuration invokes
discovery at most once. -/
theorem discovery_at_most_once_witness :
    (runOps cfgDemo initState
      [.listNames, .hasName "a", .resolve "b", .getAll, .resolve "z",
        .listNames]).discoveryCalls ≤ 1 :=
  discovery_at_most_once cfgDemo [entC]
    [.listNames, .hasName "a", .resolve "b", .getAll, .resolve "z", .listNames] rfl

/-- C1 counterexample: with a validation function that transforms entities
(allowed by the collaborator contract), the name `"a"` is in the merged
namespace, yet the first `resolve("a")` returns the original `⟨"a", 0⟩` while
the second returns the cached validated `⟨"a", 1⟩`: the two results are not
equal, refuting "resolving the same name twice returns equal entities". -/
theorem resolve_twice_unequal_cex :
    (getDefinitionNames cfgTransform initState).1 = .ok ["a"] ∧
    (getDefinition cfgTransform initState "a").1 = .ok ⟨"a", 0⟩ ∧
    (getDefinition cfgTransform
      (getDefinition cfgTransform initState "a").2 "a").1 = .ok ⟨"a", 1⟩ ∧
    (Entity.mk "a" 0 ≠ Entity.mk "a" 1) := by
  decide

/-- C1 (amended): when the validation function returns its argument unchanged,
a successful `resolve(name)` is followed by a second `resolve(name)` that
returns the same entity and leaves the state unchanged (served from the
resolved cache, so no factory or discovery runs); moreover the first call adds
at most one invocation of the factory registered under that name. -/
theorem resolve_twice_cached (cfg : IndexConfig) (st0 st1 : IndexState)
    (n : String) (e1 : Entity)
    (hid : ∀ x, cfg.validationFn x = .ok x)
    (h1 : getDefinition cfg st0 n = (.ok e1, st1)) :
    getDefinition cfg st1 n = (.ok e1, st1) ∧
    (st1.factoryCalls = st0.factoryCalls ∨
      st1.factoryCalls = st0.factoryCalls ++ [n]) := by
  obtain ⟨⟨ns, hmemo, hmem⟩, hcache, hfc⟩ :=
    getDefinition_ok_facts cfg st0 n e1 st1 hid h1
  exact ⟨getDefinition_cached cfg st1 n e1 ns hmemo hmem hcache, hfc⟩

/-- C1 witness: resolving the factory-backed `"b"` twice on the demo
configuration returns the same entity, leaves the state unchanged, and records
exactly one factory invocation for `"b"`. -/
theorem resolve_twice_cached_witness :
    getDefinition cfgDemo (getDefinition cfgDemo initState "b").2 "b" =
      (.ok entB, (getDefinition cfgDemo initState "b").2) ∧
    ((getDefinition cfgDemo initState "b").2.factoryCalls = initState.factoryCalls ∨
      (getDefinition cfgDemo initState "b").2.factoryCalls =
        initState.factoryCalls ++ ["b"]) :=
  resolve_twice_cached cfgDemo initState (getDefinition cfgDemo initState "b").2
    "b" entB (fun x => rfl) (by decide)

/-- C7: a successful first `getAll()` returns the resolved entities of every
known name sorted by their `name` field, and a second call with no intervening
mutation returns the identical memoized sequence with the state unchanged. -/
theorem getAll_sorted_memoized (cfg : IndexConfig) (st : IndexState)
    (ds : List Entity) (st1 : IndexState)
    (hfresh : st.allDefinitions = none)
    (h : getAllDefinitions cfg st = (.ok ds, st1)) :
    List.Pairwise (fun a b => entLe a b = true) ds ∧
    (∃ names stn raw stm,
      getDefinitionNames cfg st = (.ok names, stn) ∧
      mapGetDefinition cfg stn names = (.ok raw, stm) ∧ ds.Perm raw) ∧
    getAllDefinitions cfg st1 = (.ok ds, st1) := by
  obtain ⟨names, stn, raw, stm, h1, h2, h3, h4⟩ :=
    getAllDefinitions_ok_fresh cfg st ds st1 hfresh h
  refine ⟨?_, ⟨names, stn, raw, stm, h1, h2, ?_⟩,
    getAllDefinitions_memo cfg st1 ds h4⟩
  · rw [h3]
    exact List.sorted_insertionSort _ raw
  · rw [h3]
    exact List.perm_insertionSort _ raw

/-- C7 witness: on the demo configuration `getAll()` returns
`[entA, entB, entC]` (sorted by name), and the second call returns the
memoized sequence with the state unchanged. -/
theorem getAll_sorted_memoized_witness :
    List.Pairwise (fun a b => entLe a b = true) [entA, entB, entC] ∧
    (∃ names stn raw stm,
      getDefinitionNames cfgDemo initState = (.ok names, stn) ∧
      mapGetDefinition cfgDemo stn names = (.ok raw, stm) ∧
      List.Perm [entA, entB, entC] raw) ∧
    getAllDefinitions cfgDemo (getAllDefinitions cfgDemo initState).2 =
      (.ok [entA, entB, entC], (getAllDefinitions cfgDemo initState).2) :=
  getAll_sorted_memoized cfgDemo initState [entA, entB, entC]
    (getAllDefinitions cfgDemo initState).2 rfl (by decide)

/-- C4: with a lazy batch whose validations succeed, (a) if some discovered
entity's name is an eager key with an unequal representation, the first
operation that triggers discovery — `listNames`, `hasName`, `resolve`, or
`getAll` — fails with the duplicate-definition condition for a conflicting
name, and no name list is committed for the index; (b) if every overlap is
equal, `resolve` succeeds for an overlapping name. -/
theorem dup_lazy_eager (cfg : IndexConfig) (lds : List Entity)
    (hfn : cfg.lazyDefinitionsFn = .ok lds)
    (hval : ∀ d ∈ lds, ∃ v, cfg.validationFn d = .ok v) :
    ((∃ d ∈ lds, ∃ en, lookupDef cfg d.name = some en ∧ entryEqEntity en d = false) →
      ∃ m st', getDefinitionNames cfg initState =
        (.error (.checkError (dupMsg m)), st') ∧
        (∃ d ∈ lds, d.name = m ∧ ∃ en, lookupDef cfg m = some en ∧
          entryEqEntity en d = false) ∧
        st'.definitionNames = none ∧
        (∀ q, hasDefinition cfg initState q = (.error (.checkError (dupMsg m)), st')) ∧
        (∀ q, getDefinition cfg initState q = (.error (.checkError (dupMsg m)), st')) ∧
        getAllDefinitions cfg initState = (.error (.checkError (dupMsg m)), st')) ∧
    (∀ n d en, d ∈ lds → d.name = n → lookupDef cfg n = some en →
      (∀ e ∈ lds, ∀ en', lookupDef cfg e.name = some en' → entryEqEntity en' e = true) →
      ∃ v st', getDefinition cfg initState n = (.ok v, st')) := by
  obtain ⟨stV, hvll⟩ := validateLazyList_ok cfg lds
    { initState with discoveryCalls := initState.discoveryCalls + 1,
                     lazyDefinitions := some lds } hval
  have hgl := getLazyDefinitions_build cfg lds initState stV rfl hfn hvll
  constructor
  · intro hconf
    obtain ⟨m, hm, hconf'⟩ := computeLazyNames_conflict cfg lds hconf
    have hgdn := getDefinitionNames_build_err cfg lds initState stV _ rfl hgl hm
    have hdn : stV.definitionNames = none := by
      have hf := validateLazyList_frame cfg lds
        { initState with discoveryCalls := initState.discoveryCalls + 1,
                         lazyDefinitions := some lds }
      rw [hvll] at hf
      exact hf.1
    refine ⟨m, stV, hgdn, hconf', hdn, ?_, ?_, ?_⟩
    · intro q
      exact hasDefinition_err cfg initState q _ stV hgdn
    · intro q
      exact getDefinition_err cfg initState q _ stV hgdn
    · exact getAllDefinitions_err cfg initState _ stV rfl hgdn
  · intro n d en hd hname hlk hagree
    obtain ⟨lazyNames, hcln⟩ := computeLazyNames_all_ok cfg lds hagree
    have hgdn := getDefinitionNames_build cfg lds initState stV lazyNames rfl hgl hcln
    have hcachemem := (validateLazyList_cache cfg lds _ stV hvll).1 d hd
    rw [hname] at hcachemem
    obtain ⟨v, hv⟩ := Option.isSome_iff_exists.mp hcachemem
    have hmem : n ∈ eagerKeys cfg ++ lazyNames :=
      List.mem_append_left _ (lookupDef_mem_eagerKeys cfg n en hlk)
    have hhas := hasDefinition_build cfg initState n _ _ hgdn hmem
    exact ⟨v, _, getDefinition_via_has cfg initState n _ v hhas hv⟩

/-- C4 witness: an unequal eager/lazy overlap for `"a"` makes every
discovery-triggering operation fail with the duplicate message, while an equal
overlap lets `resolve("a")` succeed. -/
theorem dup_lazy_eager_witness :
    (∃ m st', getDefinitionNames cfgConflict initState =
      (.error (.checkError (dupMsg m)), st') ∧
      (∃ d ∈ [(⟨"a", 5⟩ : Entity)], d.name = m ∧
        ∃ en, lookupDef cfgConflict m = some en ∧ entryEqEntity en d = false) ∧
      st'.definitionNames = none ∧
      (∀ q, hasDefinition cfgConflict initState q =
        (.error (.checkError (dupMsg m)), st')) ∧
      (∀ q, getDefinition cfgConflict initState q =
        (.error (.checkError (dupMsg m)), st')) ∧
      getAllDefinitions cfgConflict initState =
        (.error (.checkError (dupMsg m)), st')) ∧
    (∃ v st', getDefinition cfgAgree initState "a" = (.ok v, st')) :=
  ⟨(dup_lazy_eager cfgConflict [⟨"a", 5⟩] rfl (fun d hd => ⟨d, rfl⟩)).1
      ⟨⟨"a", 5⟩, by decide, ⟨.defn entA, rfl, by decide⟩⟩,
    (dup_lazy_eager cfgAgree [entA] rfl (fun d hd => ⟨d, rfl⟩)).2 "a" entA
      (.defn entA) (by decide) rfl rfl
      (fun e he en' hen' => by
        rcases List.mem_singleton.mp he with rfl
        have h0 : lookupDef cfgAgree entA.name = some (Entry.defn entA) := rfl
        rw [h0] at hen'
        obtain rfl : Entry.defn entA = en' := Option.some.inj hen'
        rfl)⟩
